import Mathlib

/-!
Shallow embedding of the ttare entropy-adaptive archiver (`src/main.rs`) and
proofs about it.  Machine floats of the source are read over exact numbers:
`f32` scores over `ℝ`, the sampling ratio over `ℚ`; byte values are `Fin 256`.
The byte-level tar/gzip coding of the archive libraries is abstracted to typed
entry lists; the fields the source explicitly sets on the reserved entry's tar
header are modelled faithfully.
-/

namespace Ttare

/-- Byte values, the Rust `u8`. -/
abbrev Byte := Fin 256

/-- Per-file decision, the `EntropyAnalysis` enum of `main.rs`. -/
inductive EntropyAnalysis
  | Compress
  | DontCompress
deriving DecidableEq

/-- Default entropy threshold, `ENTROPY_THRESHOLD: f32 = 6.5f32`. -/
def ENTROPY_THRESHOLD : ℝ := 6.5

/-- Default sampling fraction, `ENTROPY_SAMPLING: f32 = 0.5f32`. -/
def ENTROPY_SAMPLING : ℚ := 1/2

/-- Name of the reserved member, `TTARE_COMPRESS_FILE_NAME`. -/
def TTARE_COMPRESS_FILE_NAME : String := ".ttare.tar.gz"

/-- Idealized sample length: the exact rational value of
`file_length × sampling_ratio`, floored (`as usize` truncates toward zero).
This is the length the spec describes; claims that are conditioned on the
computed length (the zero-sample case, the error path) use it.  The `f32`
rounding the source's line 164 actually performs is modelled separately by
`sampleLenF32`, which diverges from this exact value on large files. -/
def sampleLen (fileLen : ℕ) (entropy_sampling : ℚ) : ℕ :=
  (⌊(fileLen : ℚ) * entropy_sampling⌋).toNat

/-- Bit length of `n` (`0` for `0`); the first argument is structural
recursion fuel, 128 covers every intermediate value a `u64 × f32`
computation can produce. -/
def bitLenAux (fuel n : ℕ) : ℕ :=
  match fuel with
  | 0 => 0
  | fuel + 1 => if n = 0 then 0 else bitLenAux fuel (n / 2) + 1

/-- Bit length of a value of at most 128 bits. -/
def bitLen (n : ℕ) : ℕ := bitLenAux 128 n

/-- Round the integer `n` to 24 significant bits, round-to-nearest with ties
to even — the exact value of the IEEE-754 binary32 nearest to `n`.  This is
what Rust's `as f32` on a `u64` in `f32`'s finite range computes. -/
def toF32 (n : ℕ) : ℕ :=
  let b := bitLen n
  if b ≤ 24 then n
  else
    let s := b - 24
    let q := n / 2 ^ s
    let r := n % 2 ^ s
    let half := 2 ^ (s - 1)
    let q' := if half < r then q + 1
      else if r < half then q
      else if q % 2 = 0 then q else q + 1
    q' * 2 ^ s

/-- The `f32` product `a * ratio` followed by `as usize`, computed over exact
naturals: `a` is an integral `f32` value, the ratio is the dyadic value
`rn / 2^rs` of the `f32` sampling ratio.  The exact product `a*rn / 2^rs` is
rounded to 24 significant bits (round-to-nearest, ties to even — the IEEE
binary32 multiply), then truncated toward zero (`as usize` on a nonnegative
in-range float). -/
def mulF32Trunc (a rn rs : ℕ) : ℕ :=
  let m := a * rn
  let b := bitLen m
  if b ≤ 24 then m / 2 ^ rs
  else
    let s := b - 24
    let q := m / 2 ^ s
    let r := m % 2 ^ s
    let half := 2 ^ (s - 1)
    let q' := if half < r then q + 1
      else if r < half then q
      else if q % 2 = 0 then q else q + 1
    (q' * 2 ^ s) / 2 ^ rs

/-- The sample length the source actually computes at `main.rs` line 164,
`(file.metadata()?.len() as f32 * entropy_sampling) as usize`, with both
`f32` roundings — the `u64`-to-`f32` conversion and the product — modelled
exactly; the sampling ratio is passed as its dyadic `f32` value
`rn / 2^rs`. -/
def sampleLenF32 (fileLen rn rs : ℕ) : ℕ :=
  mulF32Trunc (toF32 fileLen) rn rs

/-- A logical archive member: relative path and byte content. -/
structure FileEnt where
  path : String
  content : List Byte
deriving DecidableEq

/-- The tar-header fields `compress` sets on the reserved entry
(name via `append_data`, then `set_size`, `set_mode`, `set_mtime`,
`set_cksum`). -/
structure Header where
  name : String
  size : ℕ
  mode : ℕ
  mtime : ℕ
  cksum : ℕ
deriving DecidableEq

/-- Big-endian octal digits of `n`, empty for `0`; the first argument is
structural-recursion fuel (any value at least the digit count works, and `n`
itself always does). -/
def octDigitsAux (fuel n : ℕ) : List ℕ :=
  match fuel with
  | 0 => []
  | fuel + 1 => if n = 0 then [] else octDigitsAux fuel (n / 8) ++ [n % 8]

/-- ASCII bytes of `n` written in octal, zero-padded to `width - 1` digits
and NUL-terminated, as in a tar numeric header field. -/
def octField (n width : ℕ) : List ℕ :=
  let ds := (octDigitsAux n n).map (fun d => d + 48)
  List.replicate (width - 1 - ds.length) 48 ++ ds ++ [0]

/-- Name field bytes: the path's bytes padded with NULs to the field width. -/
def nameField (s : String) (width : ℕ) : List ℕ :=
  let bs := s.toList.map Char.toNat
  bs.take width ++ List.replicate (width - bs.length) 0

/-- Constant contribution of the GNU magic/version bytes (`ustar ` and a
space + NUL) that `Header::new_gnu` writes and the checksum sums over. -/
def gnuMagicSum : ℕ := ("ustar ".toList.map Char.toNat).sum + 32 + 0

/-- Tar checksum of the modelled header: the sum of the serialized header
bytes with the checksum field itself read as eight ASCII spaces (the rule the
`tar` crate's `set_cksum` implements).  Fields the source leaves at their
`Header::new_gnu` defaults (uid, gid, typeflag, …) are zero there and so are
summed as zero-valued octal fields or omitted NULs. -/
def headerChecksum (h : Header) : ℕ :=
  (nameField h.name 100).sum + (octField h.mode 8).sum + (octField 0 8).sum
    + (octField 0 8).sum + (octField h.size 12).sum + (octField h.mtime 12).sum
    + 8 * 32 + gnuMagicSum

/-- The `Header::set_cksum` call: store the checksum computed over the
header. -/
def setCksum (h : Header) : Header := { h with cksum := headerChecksum h }

/-- The header built for the reserved entry in `compress` (`main.rs`
134–149): size of the compressed buffer, mode `32 | 4 | 256`, mtime = current
wall-clock seconds (`now`, passed in), checksum set, name set by
`append_data`. -/
def reservedHeader (payloadLen now : ℕ) : Header :=
  setCksum
    { name := TTARE_COMPRESS_FILE_NAME
      size := payloadLen
      mode := 32 ||| 4 ||| 256
      mtime := now
      cksum := 0 }

/-- One entry of the outer tar archive.  The gzip + tar byte coding of the
reserved entry's payload is abstracted: the entry carries the inner archive's
member list directly (the coding is injective and inverted by the unpacker,
which is all the container-level claims use). -/
inductive OuterEntry
  | raw (f : FileEnt)
  | reserved (h : Header) (inner : List FileEnt)
deriving DecidableEq

/-- Name under which an entry appears in the outer archive. -/
def entryName : OuterEntry → String
  | .raw f => f.path
  | .reserved _ _ => TTARE_COMPRESS_FILE_NAME

/-- Abstraction of `compressed_buf.len()`: the model does not track gzip's
output size, so it measures the inner members' total content length. -/
def innerPayloadLen (inner : List FileEnt) : ℕ :=
  (inner.map (fun f => f.content.length)).sum

/-- The routing loop of `compress` (`main.rs` 106–123): each file goes, in
input order, into the root tar or the to-be-compressed tar according to its
`EntropyAnalysis`.  Returns (root members, compress members). -/
def routeFiles (files : List FileEnt) (classify : FileEnt → EntropyAnalysis) :
    List FileEnt × List FileEnt :=
  match files with
  | [] => ([], [])
  | f :: rest =>
    let (root, comp) := routeFiles rest classify
    match classify f with
    | .Compress => (root, f :: comp)
    | .DontCompress => (f :: root, comp)

/-- The archive construction of `compress` (`main.rs` 103–152), with the
per-file entropy decision passed in as `classify` (in the program it is the
result of `analyze_entropy` on the opened file).  After the routing loop the
compressed tar is unconditionally appended to the root tar as the single
reserved entry. -/
def pack (files : List FileEnt) (classify : FileEnt → EntropyAnalysis) (now : ℕ) :
    List OuterEntry :=
  let routed := routeFiles files classify
  routed.1.map OuterEntry.raw
    ++ [OuterEntry.reserved (reservedHeader (innerPayloadLen routed.2) now) routed.2]

deriving instance DecidableEq for Except

/-- Errors of the spec's taxonomy (§7) that the modelled operations raise. -/
inductive TtError
  | ioError
  | corruptArchive
  | decompressionError
  | pathTraversal
deriving DecidableEq

/-- Slash-separated components of a path's character list. -/
def splitOnSlash : List Char → List (List Char)
  | [] => [[]]
  | c :: rest =>
    match splitOnSlash rest with
    | [] => [[]]
    | g :: gs => if c = '/' then [] :: g :: gs else (c :: g) :: gs

/-- Modelled from the spec: the path admissibility check of §4.3 — a member
path must not be absolute and must not contain parent-directory traversal
components. -/
def pathOk (p : String) : Bool :=
  (match p.toList with
    | '/' :: _ => false
    | _ => true)
  && !((splitOnSlash p.toList).contains ['.', '.'])

/-- Modelled from the spec: restoration of a single outer entry (§4.3).  A
raw entry is restored as-is when its path is admissible; the reserved entry
is decompressed and its inner members restored.  A raw entry that bears the
reserved name does not hold a valid compressed inner container, so restoring
it fails with a decompression error. -/
def restoreEntry : OuterEntry → Except TtError (List FileEnt)
  | .raw f =>
    if f.path = TTARE_COMPRESS_FILE_NAME then .error .decompressionError
    else if pathOk f.path then .ok [f]
    else .error .pathTraversal
  | .reserved _ inner =>
    if inner.all (fun f => pathOk f.path) then .ok inner
    else .error .pathTraversal

/-- Modelled from the spec: sequential restoration of the outer entries, in
order, stopping at the first failure (§4.3's "no partial extraction is left
half-written without being reported" is read as whole-operation failure). -/
def restoreAll : List OuterEntry → Except TtError (List FileEnt)
  | [] => .ok []
  | e :: rest =>
    match restoreEntry e with
    | .error er => .error er
    | .ok r =>
      match restoreAll rest with
      | .error er => .error er
      | .ok rs => .ok (r ++ rs)

/-- Modelled from the spec: the unpacker of §4.3, absent from `main.rs` (the
`Decompress` arm of `main` is empty).  It fails on a duplicated reserved
name, and otherwise restores every entry in order. -/
def unpack (outer : List OuterEntry) : Except TtError (List FileEnt) :=
  if 2 ≤ (outer.filter (fun e => entryName e == TTARE_COMPRESS_FILE_NAME)).length then
    .error .corruptArchive
  else
    restoreAll outer

/-- Observable filesystem effects of a run. -/
inductive Ev
  | openSrc (path : String)
  | createDest
  | writeDest (archive : List OuterEntry)
deriving DecidableEq

/-- The per-file loop of `compress`, effect view: each file is opened (an
`openSrc` effect); a file that cannot be opened aborts the loop with the
error (`?` on `File::open`).  On success it returns the members read. -/
def readFilesLoop (fs : String → Option (List Byte)) :
    List String → List Ev × Except TtError (List FileEnt)
  | [] => ([], .ok [])
  | p :: rest =>
    match fs p with
    | none => ([Ev.openSrc p], .error .ioError)
    | some bytes =>
      (Ev.openSrc p :: (readFilesLoop fs rest).1,
        (readFilesLoop fs rest).2.map (fun l => ⟨p, bytes⟩ :: l))

/-- Run of `compress` (`main.rs` 97–157) over an abstract file system `fs`
(`none` models a file that cannot be opened or read), with the entropy
decision abstracted into `classify`.  Effects on the destination happen only
after the whole outer archive has been built in memory: `File::create`, then
a single `write_all` of the complete byte stream. -/
def runCompress (fs : String → Option (List Byte)) (files : List String)
    (classify : FileEnt → EntropyAnalysis) (now : ℕ) :
    List Ev × Except TtError Unit :=
  match (readFilesLoop fs files).2 with
  | .error e => ((readFilesLoop fs files).1, .error e)
  | .ok ents =>
    ((readFilesLoop fs files).1 ++ [Ev.createDest, Ev.writeDest (pack ents classify now)],
      .ok ())

/-- The `Commands::Decompress` arm of `main` (`main.rs` 88–94): the arm's
body is empty — no filesystem effect is produced — and `main` then returns
`Ok(())`. -/
def runDecompress (input_file : String) (output_dir : Option String) :
    List Ev × Except TtError Unit :=
  ([], .ok ())

/-- Shannon-entropy score of a byte sample, the `entropy` function of
`main.rs` (180–197) read over exact reals: a histogram of the sample's byte
values is built (`counts`), and `-p * p.log2()` is summed over its buckets,
where `p = count / total`.  The bucket set is the sample's set of distinct
byte values, traversed here as `List.dedup`. -/
noncomputable def entropy (entropy_bytes : List Byte) : ℝ :=
  let total : ℝ := entropy_bytes.length
  (entropy_bytes.dedup.map (fun b =>
      let p : ℝ := (entropy_bytes.count b : ℝ) / total
      (-p) * Real.logb 2 p)).sum

/-- The decision at the end of `analyze_entropy` (`main.rs` 173–177):
strictly-greater comparison of the score against the threshold. -/
noncomputable def classifyScore (score threshold : ℝ) : EntropyAnalysis :=
  if score > threshold then .DontCompress else .Compress

/-- A file as the estimator sees it: the length reported by `metadata()` and
the bytes actually available to read. -/
structure FData where
  declaredLen : ℕ
  bytes : List Byte

/-- The `read_exact` call on the sample buffer: succeeds with the first `n`
bytes iff at least `n` bytes are available. -/
def read_exact (bytes : List Byte) (n : ℕ) : Except TtError (List Byte) :=
  if n ≤ bytes.length then .ok (bytes.take n) else .error .ioError

/-- The `analyze_entropy` function (`main.rs` 159–178) over an abstract file:
`none` models a file that cannot be opened or whose metadata cannot be
read. -/
noncomputable def analyze_entropy (file : Option FData) (entropy_sampling : ℚ)
    (entropy_threshold : ℝ) : Except TtError EntropyAnalysis :=
  match file with
  | none => .error .ioError
  | some fd =>
    let entropy_bytes_len := sampleLen fd.declaredLen entropy_sampling
    match read_exact fd.bytes entropy_bytes_len with
    | .error e => .error e
    | .ok entropy_bytes => .ok (classifyScore (entropy entropy_bytes) entropy_threshold)

/-- Shannon entropy as the spec writes it: `H = Σ_v -p(v)·log2(p(v))` over
byte values `v` with `count v > 0`, `p(v) = count(v) / sample_length`. -/
noncomputable def shannonEntropy (bs : List Byte) : ℝ :=
  ∑ v : Byte, if bs.count v = 0 then 0 else
    -((bs.count v : ℝ) / bs.length) * Real.logb 2 ((bs.count v : ℝ) / bs.length)

/-- C3: the decision is DontCompress exactly when the score strictly exceeds
the threshold and Compress exactly when the score is at most the threshold;
in particular a score equal to the threshold classifies as Compress. -/
theorem classifyScore_spec (score threshold : ℝ) :
    (classifyScore score threshold = EntropyAnalysis.DontCompress ↔ threshold < score)
      ∧ (classifyScore score threshold = EntropyAnalysis.Compress ↔ score ≤ threshold)
      ∧ classifyScore threshold threshold = EntropyAnalysis.Compress := by
  refine ⟨?_, ?_, ?_⟩
  · by_cases h : threshold < score
    · simp [classifyScore, h]
    · simp [classifyScore, h]
  · by_cases h : threshold < score
    · simp [classifyScore, h, not_le.mpr h]
    · simp [classifyScore, h, not_lt.mp h]
  · simp [classifyScore]

/-- C5 is right of the spec but wrong of the code: at file length
`2^24 + 3 = 16777219` and sampling ratio `1.0` the `u64`-to-`f32` conversion
rounds the length up to `16777220` (ties to even at 24 bits), so the computed
sample length exceeds the file size and differs from
`floor(file_length × ratio) = 16777219` — the subsequent `read_exact` then
fails on a perfectly intact file.  The idealized `sampleLen` gives the
claimed (and spec-intended) whole-file value. -/
theorem sampleLenF32_bug :
    sampleLenF32 16777219 1 0 = 16777220
      ∧ 16777219 < sampleLenF32 16777219 1 0
      ∧ sampleLen 16777219 1 = 16777219
      ∧ sampleLenF32 16777219 1 0 ≠ sampleLen 16777219 1 := by
  have hex : sampleLen 16777219 1 = 16777219 := by
    simp [sampleLen]
  refine ⟨by decide, by decide, hex, ?_⟩
  rw [hex]
  decide

/-- C7: entropy estimation fails — with an I/O error — exactly when the file
cannot be opened (`none`) or fewer bytes than the computed sample size are
available. -/
theorem analyze_entropy_fails_iff (file : Option FData) (r : ℚ) (t : ℝ) :
    analyze_entropy file r t = .error TtError.ioError
      ↔ (file = none
          ∨ ∃ fd, file = some fd ∧ fd.bytes.length < sampleLen fd.declaredLen r) := by
  cases file with
  | none => simp [analyze_entropy]
  | some fd =>
    by_cases h : sampleLen fd.declaredLen r ≤ fd.bytes.length
    · simp [analyze_entropy, read_exact, h]
    · simp [analyze_entropy, read_exact, h]
      omega

/-- C6: a zero-length sample has entropy exactly 0 — the empty histogram
contributes no summand, so no division by the sample length happens — and
the file is classified Compress for any meaningful (nonnegative)
threshold. -/
theorem zero_sample_compress (fd : FData) (r : ℚ) (t : ℝ)
    (hs : sampleLen fd.declaredLen r = 0) (ht : 0 ≤ t) :
    entropy [] = 0
      ∧ analyze_entropy (some fd) r t = .ok EntropyAnalysis.Compress := by
  have h0 : entropy [] = 0 := by simp [entropy]
  refine ⟨h0, ?_⟩
  simp [analyze_entropy, hs, read_exact, h0, classifyScore, not_lt.mpr ht]

/-- Witness for `zero_sample_compress`: the zero-byte file at the default
configuration. -/
theorem zero_sample_compress_witness :
    (sampleLen (0 : ℕ) ENTROPY_SAMPLING = 0 ∧ (0 : ℝ) ≤ ENTROPY_THRESHOLD)
      ∧ (entropy [] = 0
          ∧ analyze_entropy (some ⟨0, []⟩) ENTROPY_SAMPLING ENTROPY_THRESHOLD
              = .ok EntropyAnalysis.Compress) :=
  ⟨⟨by norm_num [sampleLen, ENTROPY_SAMPLING], by norm_num [ENTROPY_THRESHOLD]⟩,
   zero_sample_compress ⟨0, []⟩ ENTROPY_SAMPLING ENTROPY_THRESHOLD
     (by norm_num [sampleLen, ENTROPY_SAMPLING]) (by norm_num [ENTROPY_THRESHOLD])⟩

/-- The routing loop computes the two order-preserving filters of the input
list. -/
theorem routeFiles_eq_filter (files : List FileEnt)
    (classify : FileEnt → EntropyAnalysis) :
    routeFiles files classify
      = (files.filter (fun f => classify f == EntropyAnalysis.DontCompress),
         files.filter (fun f => classify f == EntropyAnalysis.Compress)) := by
  induction files with
  | nil => rfl
  | cons f rest ih =>
    simp only [routeFiles, ih]
    cases h : classify f <;> simp [List.filter_cons, h]

/-- C1 as stated is false: with the empty input list every input file
(vacuously) classifies DontCompress, yet the produced archive contains one
entry named `.ttare.tar.gz` rather than none — the reserved entry is
appended unconditionally. -/
theorem pack_reserved_empty_counterexample :
    (pack [] (fun _ => EntropyAnalysis.DontCompress) 0).countP
        (fun e => entryName e == TTARE_COMPRESS_FILE_NAME) = 1
      ∧ ¬ (pack [] (fun _ => EntropyAnalysis.DontCompress) 0).countP
            (fun e => entryName e == TTARE_COMPRESS_FILE_NAME) = 0 := by
  constructor
  · decide
  · decide

/-- C1 amended: for every input list and classification — in particular when
every file classifies DontCompress, and when at least one classifies
Compress — the archive contains exactly one entry named `.ttare.tar.gz`,
provided no input file itself bears the reserved name. -/
theorem pack_always_reserved (files : List FileEnt)
    (classify : FileEnt → EntropyAnalysis) (now : ℕ)
    (h : ∀ f ∈ files, f.path ≠ TTARE_COMPRESS_FILE_NAME) :
    (pack files classify now).countP
      (fun e => entryName e == TTARE_COMPRESS_FILE_NAME) = 1 := by
  simp only [pack, routeFiles_eq_filter]
  rw [List.countP_append]
  have hraw : (List.countP (fun e => entryName e == TTARE_COMPRESS_FILE_NAME)
      ((files.filter (fun f => classify f == EntropyAnalysis.DontCompress)).map
        OuterEntry.raw)) = 0 := by
    rw [List.countP_eq_zero]
    intro e he
    rcases List.mem_map.mp he with ⟨f, hf, rfl⟩
    have hf' : f ∈ files := List.mem_of_mem_filter hf
    simpa [entryName] using h f hf'
  rw [hraw]
  simp [entryName]

/-- Witness for `pack_always_reserved`: one file, classified DontCompress. -/
theorem pack_always_reserved_witness :
    (∀ f ∈ [(⟨"a.txt", [97]⟩ : FileEnt)], f.path ≠ TTARE_COMPRESS_FILE_NAME)
      ∧ (pack [(⟨"a.txt", [97]⟩ : FileEnt)] (fun _ => EntropyAnalysis.DontCompress) 0).countP
          (fun e => entryName e == TTARE_COMPRESS_FILE_NAME) = 1 :=
  ⟨by decide, pack_always_reserved _ _ 0 (by decide)⟩

/-- C9: every reserved entry a pack produces carries the synthetic header:
mode `0o444` (the source writes `32 | 4 | 256`), mtime equal to the
wall-clock seconds at pack time, and the checksum computed over the header
(with the checksum field read as spaces, the standard tar rule). -/
theorem reserved_header_spec (files : List FileEnt)
    (classify : FileEnt → EntropyAnalysis) (now : ℕ)
    (h : Header) (inner : List FileEnt)
    (hm : OuterEntry.reserved h inner ∈ pack files classify now) :
    h.mode = 0o444 ∧ h.mtime = now ∧ h.cksum = headerChecksum h := by
  simp only [pack] at hm
  rcases List.mem_append.mp hm with hraw | hres
  · rcases List.mem_map.mp hraw with ⟨f, _, hf⟩
    exact absurd hf (by simp)
  · have heq : OuterEntry.reserved h inner
        = OuterEntry.reserved
            (reservedHeader (innerPayloadLen (routeFiles files classify).2) now)
            (routeFiles files classify).2 := List.mem_singleton.mp hres
    have hh : h = reservedHeader (innerPayloadLen (routeFiles files classify).2) now := by
      injection heq
    subst hh
    refine ⟨?_, rfl, rfl⟩
    show (32 ||| 4 ||| 256 : ℕ) = 0o444
    decide

/-- Witness for `reserved_header_spec`: the reserved entry of the empty pack
at clock value 5. -/
theorem reserved_header_spec_witness :
    (OuterEntry.reserved (reservedHeader 0 5) []
        ∈ pack [] (fun _ => EntropyAnalysis.DontCompress) 5)
      ∧ ((reservedHeader 0 5).mode = 0o444 ∧ (reservedHeader 0 5).mtime = 5
          ∧ (reservedHeader 0 5).cksum = headerChecksum (reservedHeader 0 5)) :=
  ⟨List.mem_singleton.mpr rfl,
   reserved_header_spec [] (fun _ => EntropyAnalysis.DontCompress) 5 _ _
     (List.mem_singleton.mpr rfl)⟩

/-- Every event the reading loop produces is a source-file open. -/
theorem readFilesLoop_events (fs : String → Option (List Byte)) (files : List String) :
    ∀ e ∈ (readFilesLoop fs files).1, ∃ q, e = Ev.openSrc q := by
  induction files with
  | nil => simp [readFilesLoop]
  | cons p rest ih =>
    cases h : fs p with
    | none => simp [readFilesLoop, h]
    | some bytes =>
      simp only [readFilesLoop, h]
      intro e he
      rcases List.mem_cons.mp he with rfl | he'
      · exact ⟨p, rfl⟩
      · exact ih e he'

/-- An unreadable input makes the reading loop fail with the I/O error. -/
theorem readFilesLoop_error (fs : String → Option (List Byte)) (files : List String)
    (hex : ∃ p ∈ files, fs p = none) :
    (readFilesLoop fs files).2 = .error TtError.ioError := by
  induction files with
  | nil => simp at hex
  | cons p rest ih =>
    rcases hex with ⟨q, hq, hnone⟩
    rcases List.mem_cons.mp hq with rfl | hq'
    · simp [readFilesLoop, hnone]
    · cases h : fs p with
      | none => simp [readFilesLoop, h]
      | some bytes => simp [readFilesLoop, h, ih ⟨q, hq', hnone⟩, Except.map]

/-- When every input is readable the loop returns the member list in input
order. -/
theorem readFilesLoop_ok (fs : String → Option (List Byte)) (files : List String)
    (hall : ∀ p ∈ files, fs p ≠ none) :
    (readFilesLoop fs files).2
      = .ok (files.map (fun p => ⟨p, (fs p).getD []⟩)) := by
  induction files with
  | nil => simp [readFilesLoop]
  | cons p rest ih =>
    cases h : fs p with
    | none => exact absurd h (hall p (List.mem_cons_self p rest))
    | some bytes =>
      have := ih (fun q hq => hall q (List.mem_cons_of_mem p hq))
      simp [readFilesLoop, h, this, Except.map]

/-- C8: if some input file cannot be opened or read, the whole compress run
fails and no destination effect happens (every produced event is a source
open); if every input is readable, the run succeeds and its destination
effects are exactly one create followed by one write of the complete outer
archive, after all the source opens. -/
theorem compress_atomic (fs : String → Option (List Byte)) (files : List String)
    (classify : FileEnt → EntropyAnalysis) (now : ℕ) :
    ((∃ p ∈ files, fs p = none) →
        (runCompress fs files classify now).2 = .error TtError.ioError
          ∧ ∀ e ∈ (runCompress fs files classify now).1, ∃ q, e = Ev.openSrc q)
      ∧ ((∀ p ∈ files, fs p ≠ none) →
          (runCompress fs files classify now).2 = .ok ()
            ∧ (runCompress fs files classify now).1
                = (readFilesLoop fs files).1
                    ++ [Ev.createDest,
                        Ev.writeDest
                          (pack (files.map (fun p => ⟨p, (fs p).getD []⟩)) classify now)]
            ∧ ∀ e ∈ (readFilesLoop fs files).1, ∃ q, e = Ev.openSrc q) := by
  constructor
  · intro hex
    have herr := readFilesLoop_error fs files hex
    constructor
    · simp [runCompress, herr]
    · intro e he
      apply readFilesLoop_events fs files e
      simpa [runCompress, herr] using he
  · intro hall
    have hok := readFilesLoop_ok fs files hall
    exact ⟨by simp [runCompress, hok], by simp [runCompress, hok],
      readFilesLoop_events fs files⟩

/-- Witness for `compress_atomic`: a one-file run whose input cannot be
opened. -/
theorem compress_atomic_witness :
    (∃ p ∈ ["gone.txt"],
        (fun q => if q = "gone.txt" then (none : Option (List Byte)) else some [97]) p = none)
      ∧ ((runCompress
            (fun q => if q = "gone.txt" then (none : Option (List Byte)) else some [97])
            ["gone.txt"] (fun _ => EntropyAnalysis.Compress) 0).2
          = .error TtError.ioError
        ∧ ∀ e ∈ (runCompress
            (fun q => if q = "gone.txt" then (none : Option (List Byte)) else some [97])
            ["gone.txt"] (fun _ => EntropyAnalysis.Compress) 0).1,
            ∃ q, e = Ev.openSrc q) :=
  ⟨by decide,
   (compress_atomic
      (fun q => if q = "gone.txt" then (none : Option (List Byte)) else some [97])
      ["gone.txt"] (fun _ => EntropyAnalysis.Compress) 0).1 (by decide)⟩

/-- Restoring a raw entry with an admissible, non-reserved path yields back
exactly that member. -/
theorem restoreEntry_raw_ok (f : FileEnt) (hp : pathOk f.path = true)
    (hn : f.path ≠ TTARE_COMPRESS_FILE_NAME) :
    restoreEntry (OuterEntry.raw f) = .ok [f] := by
  simp [restoreEntry, hn, hp]

/-- Restoring a packed outer entry list — good raw entries followed by the
reserved entry — restores the raw members one by one and then the inner
member list. -/
theorem restoreAll_pack (raws comp : List FileEnt) (hdr : Header)
    (h : ∀ f ∈ raws, pathOk f.path = true ∧ f.path ≠ TTARE_COMPRESS_FILE_NAME)
    (hc : comp.all (fun f => pathOk f.path) = true) :
    restoreAll (raws.map OuterEntry.raw ++ [OuterEntry.reserved hdr comp])
      = .ok (raws ++ comp) := by
  induction raws with
  | nil => simp [restoreAll, restoreEntry, hc]
  | cons f rest ih =>
    have hf := h f (List.mem_cons_self f rest)
    have hr := ih (fun g hg => h g (List.mem_cons_of_mem f hg))
    simp [restoreAll, restoreEntry_raw_ok f hf.1 hf.2, hr]

/-- C2 as stated is false: an input file whose relative path is literally
`.ttare.tar.gz` and which classifies DontCompress is stored raw under the
reserved name; the archive then carries two entries with the reserved name
(the raw one plus the unconditionally appended reserved entry), which the
spec's unpacker must reject as corrupt, so nothing is restored. -/
theorem unpack_pack_reserved_counterexample :
    unpack (pack [(⟨".ttare.tar.gz", [0]⟩ : FileEnt)]
        (fun _ => EntropyAnalysis.DontCompress) 0)
      = .error TtError.corruptArchive
    ∧ ¬ ∃ restored,
        unpack (pack [(⟨".ttare.tar.gz", [0]⟩ : FileEnt)]
            (fun _ => EntropyAnalysis.DontCompress) 0)
          = .ok restored
        ∧ restored.Perm [(⟨".ttare.tar.gz", [0]⟩ : FileEnt)] := by
  have h1 : unpack (pack [(⟨".ttare.tar.gz", [0]⟩ : FileEnt)]
      (fun _ => EntropyAnalysis.DontCompress) 0) = .error TtError.corruptArchive := by
    decide
  refine ⟨h1, ?_⟩
  rintro ⟨restored, hok, -⟩
  rw [h1] at hok
  exact Except.noConfusion hok

/-- C2 amended: for every input list whose member paths are admissible
(relative, no parent traversal) and distinct from the reserved name, and for
every classification and pack time, unpacking the packed archive succeeds
and restores exactly the original members — same relative paths, same bytes
— as a permutation of the input list. -/
theorem unpack_pack_roundtrip (files : List FileEnt)
    (classify : FileEnt → EntropyAnalysis) (now : ℕ)
    (h : ∀ f ∈ files, pathOk f.path = true ∧ f.path ≠ TTARE_COMPRESS_FILE_NAME) :
    ∃ restored, unpack (pack files classify now) = .ok restored
      ∧ restored.Perm files := by
  classical
  set raws := files.filter (fun f => classify f == EntropyAnalysis.DontCompress) with hraws
  set comp := files.filter (fun f => classify f == EntropyAnalysis.Compress) with hcomp
  have hroute : routeFiles files classify = (raws, comp) := routeFiles_eq_filter files classify
  have hpack : pack files classify now
      = raws.map OuterEntry.raw
        ++ [OuterEntry.reserved (reservedHeader (innerPayloadLen comp) now) comp] := by
    simp [pack, hroute]
  have hsubr : ∀ f ∈ raws, f ∈ files := fun f hf => List.mem_of_mem_filter hf
  have hsubc : ∀ f ∈ comp, f ∈ files := fun f hf => List.mem_of_mem_filter hf
  have hdup : (List.filter (fun e => entryName e == TTARE_COMPRESS_FILE_NAME)
      (pack files classify now)).length = 1 := by
    rw [hpack, List.filter_append]
    have hzero : List.filter (fun e => entryName e == TTARE_COMPRESS_FILE_NAME)
        (raws.map OuterEntry.raw) = [] := by
      rw [List.filter_eq_nil_iff]
      intro e he
      rcases List.mem_map.mp he with ⟨f, hf, rfl⟩
      have := (h f (hsubr f hf)).2
      simpa [entryName] using this
    rw [hzero]
    simp [entryName]
  have hcall : comp.all (fun f => pathOk f.path) = true := by
    rw [List.all_eq_true]
    intro f hf
    exact (h f (hsubc f hf)).1
  have hrest : restoreAll (pack files classify now) = .ok (raws ++ comp) := by
    rw [hpack]
    exact restoreAll_pack raws comp _ (fun f hf => h f (hsubr f hf)) hcall
  refine ⟨raws ++ comp, ?_, ?_⟩
  · rw [unpack]
    rw [if_neg (by rw [hdup]; omega)]
    exact hrest
  · have hperm : List.Perm (comp ++ raws) files := by
      have hco : raws = files.filter
          (fun f => !(classify f == EntropyAnalysis.Compress)) := by
        rw [hraws]
        apply List.filter_congr
        intro f _
        cases classify f <;> decide
      rw [hco, hcomp]
      exact List.filter_append_perm _ files
    exact List.perm_append_comm.trans hperm

/-- Witness for `unpack_pack_roundtrip`: a compressible text file and a raw
binary file. -/
theorem unpack_pack_roundtrip_witness :
    (∀ f ∈ [(⟨"a.txt", [97]⟩ : FileEnt), ⟨"b/c.bin", [255, 0]⟩],
        pathOk f.path = true ∧ f.path ≠ TTARE_COMPRESS_FILE_NAME)
      ∧ ∃ restored,
          unpack (pack [(⟨"a.txt", [97]⟩ : FileEnt), ⟨"b/c.bin", [255, 0]⟩]
              (fun f => if f.path = "a.txt" then EntropyAnalysis.Compress
                else EntropyAnalysis.DontCompress) 7)
            = .ok restored
          ∧ restored.Perm [(⟨"a.txt", [97]⟩ : FileEnt), ⟨"b/c.bin", [255, 0]⟩] :=
  ⟨by decide,
   unpack_pack_roundtrip [(⟨"a.txt", [97]⟩ : FileEnt), ⟨"b/c.bin", [255, 0]⟩]
     (fun f => if f.path = "a.txt" then EntropyAnalysis.Compress
       else EntropyAnalysis.DontCompress) 7 (by decide)⟩

/-- The histogram of a deduplicated sample indexes the same set of byte
values as the sample. -/
theorem dedup_toFinset (bs : List Byte) : bs.dedup.toFinset = bs.toFinset := by
  ext v
  simp [List.mem_toFinset, List.mem_dedup]

/-- The implementation's sum over histogram buckets equals the spec's sum
over byte values of positive count. -/
theorem entropy_eq_shannon (bs : List Byte) : entropy bs = shannonEntropy bs := by
  classical
  have hsum : entropy bs
      = ∑ v in bs.toFinset,
          -((bs.count v : ℝ) / bs.length) * Real.logb 2 ((bs.count v : ℝ) / bs.length) := by
    simp only [entropy]
    rw [← List.sum_toFinset _ (List.nodup_dedup bs), dedup_toFinset]
  rw [hsum, shannonEntropy]
  have hset : bs.toFinset = Finset.univ.filter (fun v : Byte => ¬ bs.count v = 0) := by
    ext v
    simp [List.mem_toFinset, List.count_eq_zero]
  rw [hset, Finset.sum_filter]
  apply Finset.sum_congr rfl
  intro v _
  by_cases hv : bs.count v = 0 <;> simp [hv]

/-- The logarithm value behind the uniform-sample score. -/
theorem logb_two_inv256 : Real.logb 2 ((1 : ℝ)/256) = -8 := by
  rw [one_div, Real.logb_inv]
  have h256 : (256 : ℝ) = 2 ^ (8 : ℕ) := by norm_num
  rw [h256, Real.logb_pow, Real.logb_self_eq_one (by norm_num)]
  norm_num

/-- C4: the score is the Shannon entropy in bits — the sum over byte values
of positive count of `-p·log2 p` with `p = count / sample_length`; a
constant-byte sample scores 0 and a sample holding all 256 byte values in
equal counts scores 8. -/
theorem entropy_shannon_spec :
    (∀ bs : List Byte, bs ≠ [] → entropy bs = shannonEntropy bs)
      ∧ (∀ (b : Byte) (n : ℕ), 0 < n → entropy (List.replicate n b) = 0)
      ∧ (∀ (bs : List Byte) (k : ℕ), 0 < k → (∀ v, bs.count v = k) →
          entropy bs = 8) := by
  classical
  refine ⟨fun bs _ => entropy_eq_shannon bs, ?_, ?_⟩
  · intro b n hn
    rw [entropy_eq_shannon, shannonEntropy]
    apply Finset.sum_eq_zero
    intro v _
    by_cases hv : (List.replicate n b).count v = 0
    · simp [hv]
    · have hvb : v = b := by
        by_contra hne
        exact hv (by simp [List.count_replicate, Ne.symm hne])
      subst hvb
      rw [if_neg hv, List.count_replicate_self, List.length_replicate]
      rw [div_self (Nat.cast_ne_zero.mpr hn.ne')]
      simp
  · intro bs k hk hcount
    rw [entropy_eq_shannon, shannonEntropy]
    have h1 : ∑ v in (Finset.univ : Finset Byte), bs.count v = bs.length := by
      rw [← List.sum_toFinset_count_eq_length bs]
      symm
      apply Finset.sum_subset (Finset.subset_univ _)
      intro v _ hv
      exact List.count_eq_zero.mpr (fun hm => hv (List.mem_toFinset.mpr hm))
    have h2 : ∑ v in (Finset.univ : Finset Byte), bs.count v = 256 * k := by
      rw [Finset.sum_congr rfl (fun v _ => hcount v), Finset.sum_const,
        Finset.card_univ, Fintype.card_fin, smul_eq_mul]
    have hlen : bs.length = 256 * k := by omega
    have hkr : ((k : ℕ) : ℝ) ≠ 0 := Nat.cast_ne_zero.mpr hk.ne'
    have hterm : ∀ v : Byte,
        (if bs.count v = 0 then (0 : ℝ) else
          -((bs.count v : ℝ) / bs.length) * Real.logb 2 ((bs.count v : ℝ) / bs.length))
          = 1/32 := by
      intro v
      rw [hcount v, hlen, if_neg hk.ne']
      have hcast : (((256 * k : ℕ)) : ℝ) = (k : ℝ) * 256 := by
        push_cast
        ring
      have hp : ((k : ℕ) : ℝ) / (((256 * k : ℕ)) : ℝ) = 1/256 := by
        rw [hcast, div_mul_eq_div_div, div_self hkr]
      rw [hp, logb_two_inv256]
      norm_num
    rw [Finset.sum_congr rfl (fun v _ => hterm v), Finset.sum_const,
      Finset.card_univ, Fintype.card_fin, nsmul_eq_mul]
    norm_num

/-- Witness for `entropy_shannon_spec`: a one-byte sample, a three-byte
constant sample, and the sample holding each byte value exactly once. -/
theorem entropy_shannon_spec_witness :
    (([0] : List Byte) ≠ [] ∧ entropy [0] = shannonEntropy [0])
      ∧ (0 < 3 ∧ entropy (List.replicate 3 (0 : Byte)) = 0)
      ∧ (0 < 1 ∧ (∀ v : Byte, (List.finRange 256).count v = 1)
          ∧ entropy (List.finRange 256) = 8) := by
  have hcount : ∀ v : Byte, (List.finRange 256).count v = 1 := fun v =>
    List.count_eq_one_of_mem (List.nodup_finRange 256) (List.mem_finRange v)
  exact ⟨⟨by decide, entropy_shannon_spec.1 [0] (by decide)⟩,
    ⟨by norm_num, entropy_shannon_spec.2.1 0 3 (by norm_num)⟩,
    ⟨by norm_num, hcount, entropy_shannon_spec.2.2 (List.finRange 256) 1 (by norm_num) hcount⟩⟩

/-- C10: the decompress subcommand performs no filesystem effects — it opens
nothing and writes nothing — and the run ends in success, for every input
file and output directory. -/
theorem runDecompress_spec (input_file : String) (output_dir : Option String) :
    (runDecompress input_file output_dir).1 = []
      ∧ (runDecompress input_file output_dir).2 = .ok () :=
  ⟨rfl, rfl⟩

end Ttare
